import Mathlib

/-!
Verification of the commit-reordering scheduler in
`src/app/src/lib/git/reorder.ts` (the `reorder` function).

The embedding follows the source line by line:

* `CommitOneLine` is the log-entry record `{ sha, summary }`.
* `ScriptEntry` is one emitted todo line `pick <sha> <summary>`; `pickOf`
  builds the line appended by `FSE.appendFile(todoPath, 'pick ...')`.
* `stepCommit` is the body of the `for` loop (lines 70-119), which walks
  `commits` in reverse (oldest to newest) carrying the mutable state
  `foundBaseCommitInLog`, `toReplayBeforeBaseCommit`, `toReplayAfterReorder`
  and the todo file contents (`script`).
* `reorder` is the whole scheduling computation (lines 44-141): the two
  precondition throws, the traversal, the flush of `toReplayAfterReorder`,
  the tail flush of `toReplayBeforeBaseCommit` when `afterCommit` is null,
  and the `AnchorNotFound` throw when the base commit was never found.
  Each distinct `throw new Error(...)` site becomes one `SchedulerError`
  constructor; the produced todo file becomes the returned script.
* `reorderExec` is the effectful skeleton of the same function
  (try/catch/finally), used to verify the temp-file cleanup behaviour.
-/

deriving instance DecidableEq for Except

structure CommitOneLine where
  sha : String
  summary : String
deriving DecidableEq

/-- One line of the rebase todo file: `pick <sha> <summary>`.  The `op`
field is always the literal `"pick"` in this module. -/
structure ScriptEntry where
  op : String
  sha : String
  summary : String
deriving DecidableEq

/-- The todo line appended for a commit: `pick ${commit.sha} ${commit.summary}`. -/
def pickOf (c : CommitOneLine) : ScriptEntry :=
  ⟨"pick", c.sha, c.summary⟩

/-- The three `throw new Error('[reorder] ...')` sites of the source, by
their trigger. -/
inductive SchedulerError where
  | emptyMoveSet
  | emptyLog
  | anchorNotFound
deriving DecidableEq

/-- `toMoveShas = new Set(toMove.map(c => c.sha))` (line 49): the state kept
is the list of shas, membership is what the algorithm consumes. -/
def moveShasOf (toMove : List CommitOneLine) : List String :=
  toMove.map fun c => c.sha

/-- `toMoveShas.has(sha)` (line 72). -/
def isMoveSha (shas : List String) (h : String) : Bool :=
  decide (h ∈ shas)

/-- `afterCommit !== null && sha === afterCommit.sha` (line 93). -/
def isAnchorSha (afterCommit : Option CommitOneLine) (h : String) : Bool :=
  match afterCommit with
  | none => false
  | some a => decide (h = a.sha)

/-- The mutable state of the traversal loop (lines 65-67 plus the growing
todo file). -/
structure ReorderState where
  foundBaseCommitInLog : Bool
  toReplayBeforeBaseCommit : List CommitOneLine
  toReplayAfterReorder : List CommitOneLine
  script : List ScriptEntry
deriving DecidableEq

def initState : ReorderState :=
  ⟨false, [], [], []⟩

/-- Body of the loop at lines 70-119, for one commit (the loop presents the
commits oldest to newest).  Branches, in source order: toMove commit
(emit if the base commit was found, else buffer in
`toReplayBeforeBaseCommit`); the base commit (unshift it onto the buffer
and flush the whole buffer); ordinary commit after the base commit
(buffer in `toReplayAfterReorder`); ordinary commit before the base
commit (emit immediately). -/
def stepCommit (toMoveShas : List String) (afterCommit : Option CommitOneLine)
    (s : ReorderState) (commit : CommitOneLine) : ReorderState :=
  if isMoveSha toMoveShas commit.sha then
    if s.foundBaseCommitInLog then
      { s with script := s.script ++ [pickOf commit] }
    else
      { s with toReplayBeforeBaseCommit := s.toReplayBeforeBaseCommit ++ [commit] }
  else if isAnchorSha afterCommit commit.sha then
    { s with foundBaseCommitInLog := true
             toReplayBeforeBaseCommit := commit :: s.toReplayBeforeBaseCommit
             script := s.script ++ (commit :: s.toReplayBeforeBaseCommit).map pickOf }
  else if s.foundBaseCommitInLog then
    { s with toReplayAfterReorder := s.toReplayAfterReorder ++ [commit] }
  else
    { s with script := s.script ++ [pickOf commit] }

/-- The scheduling computation of `reorder` (lines 44-141).  `commits` is
the log as the provider returns it, newest first; the loop traverses it in
reverse.  The result is the todo file contents on success, or the error of
the throw site reached. -/
def reorder (toMove : List CommitOneLine) (afterCommit : Option CommitOneLine)
    (commits : List CommitOneLine) : Except SchedulerError (List ScriptEntry) :=
  if toMove.length = 0 then
    .error .emptyMoveSet
  else if commits.length = 0 then
    .error .emptyLog
  else
    let final := commits.reverse.foldl (stepCommit (moveShasOf toMove) afterCommit) initState
    let script := final.script ++ final.toReplayAfterReorder.map pickOf
    match afterCommit with
    | none => .ok (script ++ final.toReplayBeforeBaseCommit.map pickOf)
    | some _ =>
      if final.foundBaseCommitInLog then .ok script
      else .error .anchorNotFound

/-- Modelled from the spec: the terminal result of the external History
Rewrite Engine (`rebaseInteractive`, whose source is outside this tree).
The scheduler's catch path returns the error result; any other terminal
outcome is opaque to the claims verified here. -/
inductive RebaseResult where
  | completedWithoutError
  | conflictsEncountered
  | error
deriving DecidableEq

/-- Modelled from the spec: the behaviour of one invocation of the external
rewrite engine — it either returns a terminal result or raises. -/
inductive EngineOutcome where
  | returns (r : RebaseResult)
  | throws
deriving DecidableEq

/-- Observable resource trace of one call to `reorder`: whether
`getTempFilePath` ran (`todoAcquired`), whether the `finally` block deleted
the file (`todoReleased`), and the returned result. -/
structure ExecResult where
  todoAcquired : Bool
  todoReleased : Bool
  result : RebaseResult
deriving DecidableEq

/-- Effectful skeleton of `reorder` (lines 41-163): the two precondition
throws happen before `todoPath = await getTempFilePath(...)` (line 64), so
the `finally` guard `todoPath !== undefined` skips the removal; every later
exit — `AnchorNotFound` throw, engine return, engine throw — runs the
`finally` with an acquired `todoPath` and removes it.  The catch block
turns any throw into `RebaseResult.Error`. -/
def reorderExec (toMove : List CommitOneLine) (afterCommit : Option CommitOneLine)
    (commits : List CommitOneLine) (engine : EngineOutcome) : ExecResult :=
  if toMove.length = 0 then
    ⟨false, false, .error⟩
  else if commits.length = 0 then
    ⟨false, false, .error⟩
  else
    match reorder toMove afterCommit commits with
    | .error _ => ⟨true, true, .error⟩
    | .ok _ =>
      match engine with
      | .returns r => ⟨true, true, r⟩
      | .throws => ⟨true, true, .error⟩

-- Concrete values used in examples and witnesses, following the spec's
-- scenario `log = [A,B,C,D,E]` (oldest to newest).
def cA : CommitOneLine := ⟨"a", "A"⟩
def cB : CommitOneLine := ⟨"b", "B"⟩
def cC : CommitOneLine := ⟨"c", "C"⟩
def cD : CommitOneLine := ⟨"d", "D"⟩
def cE : CommitOneLine := ⟨"e", "E"⟩
def cZ : CommitOneLine := ⟨"z", "Z"⟩

/-- The provider's log is newest first: oldest-to-newest `A,B,C,D,E`. -/
def logEx : List CommitOneLine := [cE, cD, cC, cB, cA]

example :
    reorder [cA, cE] (some cC) logEx =
      .ok [pickOf cB, pickOf cC, pickOf cA, pickOf cE, pickOf cD] := by
  decide

example :
    reorder [cB] none logEx =
      .ok [pickOf cA, pickOf cC, pickOf cD, pickOf cE, pickOf cB] := by
  decide

example :
    reorder [cC, cB, cA] none [cC, cB, cA] =
      .ok [pickOf cA, pickOf cB, pickOf cC] := by
  decide

example : reorder [cA] (some cZ) [cC, cB, cA] = .error .anchorNotFound := by
  decide

example : reorder [cA] none [] = .error .emptyLog := by
  decide

example : reorder [] none logEx = .error .emptyMoveSet := by
  decide

/-! ### Closed forms of the traversal

`foldl_no_hit_before` / `foldl_no_hit_after` describe the loop over a
stretch of the log containing no entry that takes the base-commit branch
(an entry takes it iff it is not a toMove commit and its sha matches the
anchor's); the two lemmas cover the two values of `foundBaseCommitInLog`. -/

theorem foldl_no_hit_before (shas : List String) (after : Option CommitOneLine)
    (l : List CommitOneLine)
    (h : ∀ c ∈ l, isMoveSha shas c.sha = true ∨ isAnchorSha after c.sha = false) :
    ∀ b aft scr, l.foldl (stepCommit shas after) ⟨false, b, aft, scr⟩ =
      ⟨false, b ++ l.filter (fun c => isMoveSha shas c.sha), aft,
        scr ++ (l.filter (fun c => !isMoveSha shas c.sha)).map pickOf⟩ := by
  induction l with
  | nil => intro b aft scr; simp
  | cons c l ih =>
    intro b aft scr
    have hc := h c (List.mem_cons_self c l)
    have hl : ∀ c' ∈ l, isMoveSha shas c'.sha = true ∨ isAnchorSha after c'.sha = false :=
      fun c' hm => h c' (List.mem_cons_of_mem c hm)
    cases hm : isMoveSha shas c.sha with
    | true =>
      have hstep : stepCommit shas after ⟨false, b, aft, scr⟩ c =
          ⟨false, b ++ [c], aft, scr⟩ := by
        simp [stepCommit, hm]
      rw [List.foldl_cons, hstep, ih hl]
      simp [List.filter_cons, hm, List.append_assoc]
    | false =>
      have ha : isAnchorSha after c.sha = false := by
        rcases hc with hc | hc
        · rw [hm] at hc; exact absurd hc (by simp)
        · exact hc
      have hstep : stepCommit shas after ⟨false, b, aft, scr⟩ c =
          ⟨false, b, aft, scr ++ [pickOf c]⟩ := by
        simp [stepCommit, hm, ha]
      rw [List.foldl_cons, hstep, ih hl]
      simp [List.filter_cons, hm, List.append_assoc]

theorem foldl_no_hit_after (shas : List String) (after : Option CommitOneLine)
    (l : List CommitOneLine)
    (h : ∀ c ∈ l, isMoveSha shas c.sha = true ∨ isAnchorSha after c.sha = false) :
    ∀ b aft scr, l.foldl (stepCommit shas after) ⟨true, b, aft, scr⟩ =
      ⟨true, b, aft ++ l.filter (fun c => !isMoveSha shas c.sha),
        scr ++ (l.filter (fun c => isMoveSha shas c.sha)).map pickOf⟩ := by
  induction l with
  | nil => intro b aft scr; simp
  | cons c l ih =>
    intro b aft scr
    have hc := h c (List.mem_cons_self c l)
    have hl : ∀ c' ∈ l, isMoveSha shas c'.sha = true ∨ isAnchorSha after c'.sha = false :=
      fun c' hm => h c' (List.mem_cons_of_mem c hm)
    cases hm : isMoveSha shas c.sha with
    | true =>
      have hstep : stepCommit shas after ⟨true, b, aft, scr⟩ c =
          ⟨true, b, aft, scr ++ [pickOf c]⟩ := by
        simp [stepCommit, hm]
      rw [List.foldl_cons, hstep, ih hl]
      simp [List.filter_cons, hm, List.append_assoc]
    | false =>
      have ha : isAnchorSha after c.sha = false := by
        rcases hc with hc | hc
        · rw [hm] at hc; exact absurd hc (by simp)
        · exact hc
      have hstep : stepCommit shas after ⟨true, b, aft, scr⟩ c =
          ⟨true, b, aft ++ [c], scr⟩ := by
        simp [stepCommit, hm, ha]
      rw [List.foldl_cons, hstep, ih hl]
      simp [List.filter_cons, hm, List.append_assoc]

/-! ### Characterisation of `reorder` on each control path -/

theorem reorder_none_eq (toMove commits : List CommitOneLine)
    (hm : toMove ≠ []) (hc : commits ≠ []) :
    reorder toMove none commits = .ok
      (((commits.reverse).filter fun c => !isMoveSha (moveShasOf toMove) c.sha).map pickOf ++
       ((commits.reverse).filter fun c => isMoveSha (moveShasOf toMove) c.sha).map pickOf) := by
  have hm' : ¬toMove.length = 0 := by simpa using hm
  have hc' : ¬commits.length = 0 := by simpa using hc
  simp only [reorder, hm', hc', if_false]
  rw [show initState = ⟨false, [], [], []⟩ from rfl,
    foldl_no_hit_before _ none _ (fun c _ => Or.inr rfl)]
  simp

theorem reorder_anchor_not_hit (toMove : List CommitOneLine) (a : CommitOneLine)
    (commits : List CommitOneLine) (hm : toMove ≠ []) (hc : commits ≠ [])
    (h : ∀ c ∈ commits, isMoveSha (moveShasOf toMove) c.sha = true ∨
      isAnchorSha (some a) c.sha = false) :
    reorder toMove (some a) commits = .error .anchorNotFound := by
  have hm' : ¬toMove.length = 0 := by simpa using hm
  have hc' : ¬commits.length = 0 := by simpa using hc
  have hrev : ∀ c ∈ commits.reverse, isMoveSha (moveShasOf toMove) c.sha = true ∨
      isAnchorSha (some a) c.sha = false :=
    fun c hcm => h c (List.mem_reverse.mp hcm)
  simp only [reorder, hm', hc', if_false]
  rw [show initState = ⟨false, [], [], []⟩ from rfl,
    foldl_no_hit_before _ (some a) _ hrev]
  simp

theorem reorder_anchor_found (toMove : List CommitOneLine) (a : CommitOneLine)
    (commits l1 l2 : List CommitOneLine) (e0 : CommitOneLine)
    (hm : toMove ≠ [])
    (hrev : commits.reverse = l1 ++ e0 :: l2)
    (hhit : isAnchorSha (some a) e0.sha = true)
    (hmov : isMoveSha (moveShasOf toMove) e0.sha = false)
    (h1 : ∀ c ∈ l1, isMoveSha (moveShasOf toMove) c.sha = true ∨
      isAnchorSha (some a) c.sha = false)
    (h2 : ∀ c ∈ l2, isMoveSha (moveShasOf toMove) c.sha = true ∨
      isAnchorSha (some a) c.sha = false) :
    reorder toMove (some a) commits = .ok
      ((l1.filter fun c => !isMoveSha (moveShasOf toMove) c.sha).map pickOf ++
       (e0 :: (l1.filter (fun c => isMoveSha (moveShasOf toMove) c.sha) ++
               l2.filter fun c => isMoveSha (moveShasOf toMove) c.sha)).map pickOf ++
       (l2.filter fun c => !isMoveSha (moveShasOf toMove) c.sha).map pickOf) := by
  have hc : commits ≠ [] := by
    intro h0
    rw [h0] at hrev
    simp at hrev
  have hm' : ¬toMove.length = 0 := by simpa using hm
  have hc' : ¬commits.length = 0 := by simpa using hc
  simp only [reorder, hm', hc', if_false]
  rw [show initState = ⟨false, [], [], []⟩ from rfl, hrev, List.foldl_append,
    foldl_no_hit_before _ (some a) _ h1, List.foldl_cons]
  have hstep : stepCommit (moveShasOf toMove) (some a)
      ⟨false, [] ++ l1.filter (fun c => isMoveSha (moveShasOf toMove) c.sha), [],
        [] ++ (l1.filter fun c => !isMoveSha (moveShasOf toMove) c.sha).map pickOf⟩ e0 =
      ⟨true, e0 :: l1.filter (fun c => isMoveSha (moveShasOf toMove) c.sha), [],
        (l1.filter fun c => !isMoveSha (moveShasOf toMove) c.sha).map pickOf ++
          (e0 :: l1.filter fun c => isMoveSha (moveShasOf toMove) c.sha).map pickOf⟩ := by
    simp [stepCommit, hmov, hhit]
  rw [hstep, foldl_no_hit_after _ (some a) _ h2]
  simp [List.append_assoc]

/-! ### Extracting structure from a successful run -/

theorem reorder_ok_ne {toMove : List CommitOneLine} {afterCommit : Option CommitOneLine}
    {commits : List CommitOneLine} {script : List ScriptEntry}
    (hok : reorder toMove afterCommit commits = .ok script) :
    toMove ≠ [] ∧ commits ≠ [] := by
  constructor
  · intro h0
    rw [h0] at hok
    simp [reorder] at hok
  · intro h0
    rw [h0] at hok
    cases toMove with
    | nil => simp [reorder] at hok
    | cons c t => simp [reorder] at hok

theorem reorder_ok_exists_hit {toMove : List CommitOneLine} {a : CommitOneLine}
    {commits : List CommitOneLine} {script : List ScriptEntry}
    (hok : reorder toMove (some a) commits = .ok script) :
    ∃ c ∈ commits, isMoveSha (moveShasOf toMove) c.sha = false ∧ c.sha = a.sha := by
  obtain ⟨hm, hc⟩ := reorder_ok_ne hok
  by_contra hno
  push_neg at hno
  have h : ∀ c ∈ commits, isMoveSha (moveShasOf toMove) c.sha = true ∨
      isAnchorSha (some a) c.sha = false := by
    intro c hcm
    cases hmv : isMoveSha (moveShasOf toMove) c.sha with
    | true => exact Or.inl rfl
    | false =>
      refine Or.inr ?_
      have := hno c hcm hmv
      simp [isAnchorSha, this]
  rw [reorder_anchor_not_hit toMove a commits hm hc h] at hok
  exact absurd hok (by simp)

theorem sha_ne_of_nodup_split (commits l1 l2 : List CommitOneLine) (e0 : CommitOneLine)
    (hnd : (commits.map fun c => c.sha).Nodup)
    (hrev : commits.reverse = l1 ++ e0 :: l2) :
    (∀ c ∈ l1, c.sha ≠ e0.sha) ∧ (∀ c ∈ l2, c.sha ≠ e0.sha) := by
  have h1 : ((commits.reverse.map fun c => c.sha)).Nodup := by
    rw [List.map_reverse]
    exact List.nodup_reverse.mpr hnd
  rw [hrev] at h1
  simp only [List.map_append, List.map_cons, List.nodup_append, List.nodup_cons] at h1
  constructor
  · intro c hcm heq
    exact h1.2.2 (List.mem_map_of_mem _ hcm) (by simp [heq])
  · intro c hcm heq
    exact h1.2.1.1 (heq ▸ List.mem_map_of_mem (fun c => c.sha) hcm)

/-- A successful anchored run decomposes the oldest-to-newest log around the
unique entry carrying the anchor's sha, and the script is exactly: the
non-moved entries before it, then the block `anchor :: movedBefore ++
movedAfter`, then the non-moved entries after it. -/
theorem reorder_some_ok_shape {toMove : List CommitOneLine} {a : CommitOneLine}
    {commits : List CommitOneLine} {script : List ScriptEntry}
    (hnd : (commits.map fun c => c.sha).Nodup)
    (hok : reorder toMove (some a) commits = .ok script) :
    ∃ l1 e0 l2, commits.reverse = l1 ++ e0 :: l2 ∧ e0.sha = a.sha ∧
      isMoveSha (moveShasOf toMove) e0.sha = false ∧
      (∀ c ∈ l1, c.sha ≠ a.sha) ∧ (∀ c ∈ l2, c.sha ≠ a.sha) ∧
      script = (l1.filter fun c => !isMoveSha (moveShasOf toMove) c.sha).map pickOf ++
        (e0 :: (l1.filter (fun c => isMoveSha (moveShasOf toMove) c.sha) ++
                l2.filter fun c => isMoveSha (moveShasOf toMove) c.sha)).map pickOf ++
        (l2.filter fun c => !isMoveSha (moveShasOf toMove) c.sha).map pickOf := by
  obtain ⟨hm, hc⟩ := reorder_ok_ne hok
  obtain ⟨e0, he0mem, hmov, hsha⟩ := reorder_ok_exists_hit hok
  obtain ⟨l1, l2, hrev⟩ := List.append_of_mem (List.mem_reverse.mpr he0mem)
  obtain ⟨hne1, hne2⟩ := sha_ne_of_nodup_split commits l1 l2 e0 hnd hrev
  have h1 : ∀ c ∈ l1, isMoveSha (moveShasOf toMove) c.sha = true ∨
      isAnchorSha (some a) c.sha = false := by
    intro c hcm
    refine Or.inr ?_
    simp [isAnchorSha, hsha ▸ hne1 c hcm]
  have h2 : ∀ c ∈ l2, isMoveSha (moveShasOf toMove) c.sha = true ∨
      isAnchorSha (some a) c.sha = false := by
    intro c hcm
    refine Or.inr ?_
    simp [isAnchorSha, hsha ▸ hne2 c hcm]
  have hhit : isAnchorSha (some a) e0.sha = true := by simp [isAnchorSha, hsha]
  have hshape := reorder_anchor_found toMove a commits l1 l2 e0 hm hrev hhit hmov h1 h2
  rw [hok] at hshape
  refine ⟨l1, e0, l2, hrev, hsha, hmov, ?_, ?_, ?_⟩
  · intro c hcm; exact hsha ▸ hne1 c hcm
  · intro c hcm; exact hsha ▸ hne2 c hcm
  · exact Except.ok.inj hshape

/-! ### List bookkeeping helpers -/

theorem filter_map_pickOf (p : ScriptEntry → Bool) (l : List CommitOneLine) :
    (l.map pickOf).filter p = (l.filter fun c => p (pickOf c)).map pickOf := by
  induction l with
  | nil => rfl
  | cons c l ih =>
    by_cases h : p (pickOf c) = true <;> simp [List.filter_cons, h, ih]

theorem filters_perm (shas : List String) (l : List CommitOneLine) :
    ((l.filter fun c => !isMoveSha shas c.sha) ++
      (l.filter fun c => isMoveSha shas c.sha)).Perm l :=
  List.perm_append_comm.trans (List.filter_append_perm _ l)

theorem script_commits_perm (shas : List String) (l1 l2 : List CommitOneLine)
    (e0 : CommitOneLine) :
    ((l1.filter fun c => !isMoveSha shas c.sha) ++
     (e0 :: (l1.filter (fun c => isMoveSha shas c.sha) ++
             l2.filter fun c => isMoveSha shas c.sha)) ++
     (l2.filter fun c => !isMoveSha shas c.sha)).Perm (l1 ++ e0 :: l2) := by
  have hl1 : ((l1.filter fun c => !isMoveSha shas c.sha) ++
      (l1.filter fun c => isMoveSha shas c.sha)).Perm l1 := filters_perm shas l1
  have hl2 : ((l2.filter fun c => isMoveSha shas c.sha) ++
      (l2.filter fun c => !isMoveSha shas c.sha)).Perm l2 :=
    List.filter_append_perm _ l2
  have h1 : (l1.filter fun c => !isMoveSha shas c.sha) ++
      (e0 :: (l1.filter (fun c => isMoveSha shas c.sha) ++
              l2.filter fun c => isMoveSha shas c.sha)) ++
      (l2.filter fun c => !isMoveSha shas c.sha) =
      (l1.filter fun c => !isMoveSha shas c.sha) ++
      e0 :: ((l1.filter fun c => isMoveSha shas c.sha) ++
             ((l2.filter fun c => isMoveSha shas c.sha) ++
              (l2.filter fun c => !isMoveSha shas c.sha))) := by
    simp [List.append_assoc]
  rw [h1]
  refine List.Perm.trans List.perm_middle ?_
  refine List.Perm.trans ?_ List.perm_middle.symm
  refine List.Perm.cons e0 ?_
  have h2 : (l1.filter fun c => !isMoveSha shas c.sha) ++
      ((l1.filter fun c => isMoveSha shas c.sha) ++
       ((l2.filter fun c => isMoveSha shas c.sha) ++
        (l2.filter fun c => !isMoveSha shas c.sha))) =
      ((l1.filter fun c => !isMoveSha shas c.sha) ++
       (l1.filter fun c => isMoveSha shas c.sha)) ++
      ((l2.filter fun c => isMoveSha shas c.sha) ++
       (l2.filter fun c => !isMoveSha shas c.sha)) := by
    simp [List.append_assoc]
  rw [h2]
  exact hl1.append hl2

/-! ### Every emitted entry comes from the log -/

/-- All commits buffered in the state, and all emitted todo lines, come from
the pool `S`. -/
def stateFrom (S : List CommitOneLine) (s : ReorderState) : Prop :=
  (∀ c ∈ s.toReplayBeforeBaseCommit, c ∈ S) ∧
  (∀ c ∈ s.toReplayAfterReorder, c ∈ S) ∧
  (∀ e ∈ s.script, ∃ c ∈ S, e = pickOf c)

theorem stateFrom_step (shas : List String) (after : Option CommitOneLine)
    (S : List CommitOneLine) (s : ReorderState) (c : CommitOneLine)
    (hin : stateFrom S s) (hc : c ∈ S) :
    stateFrom S (stepCommit shas after s c) := by
  obtain ⟨hb, ha2, hs⟩ := hin
  unfold stepCommit
  by_cases hmv : isMoveSha shas c.sha = true
  · by_cases hf : s.foundBaseCommitInLog = true
    · simp only [hmv, hf, if_true]
      refine ⟨hb, ha2, ?_⟩
      intro e he
      rcases List.mem_append.mp he with he | he
      · exact hs e he
      · exact ⟨c, hc, by simpa using he⟩
    · simp only [hmv, if_true, hf, if_false, Bool.not_eq_true] at *
      refine ⟨?_, ha2, hs⟩
      intro c' hc'
      rcases List.mem_append.mp hc' with hc' | hc'
      · exact hb c' hc'
      · simpa using (List.mem_singleton.mp hc') ▸ hc
  · by_cases hhit : isAnchorSha after c.sha = true
    · simp only [hmv, hhit, if_true, if_false, Bool.false_eq_true]
      refine ⟨?_, ha2, ?_⟩
      · intro c' hc'
        rcases List.mem_cons.mp hc' with hc' | hc'
        · exact hc' ▸ hc
        · exact hb c' hc'
      · intro e he
        rcases List.mem_append.mp he with he | he
        · exact hs e he
        · rcases List.mem_map.mp he with ⟨c', hc', rfl⟩
          rcases List.mem_cons.mp hc' with hc' | hc'
          · exact ⟨c, hc, by rw [hc']⟩
          · exact ⟨c', hb c' hc', rfl⟩
    · by_cases hf : s.foundBaseCommitInLog = true
      · simp only [hmv, hhit, hf, if_true, if_false, Bool.false_eq_true]
        refine ⟨hb, ?_, hs⟩
        intro c' hc'
        rcases List.mem_append.mp hc' with hc' | hc'
        · exact ha2 c' hc'
        · simpa using (List.mem_singleton.mp hc') ▸ hc
      · simp only [hmv, hhit, hf, if_false, Bool.false_eq_true]
        refine ⟨hb, ha2, ?_⟩
        intro e he
        rcases List.mem_append.mp he with he | he
        · exact hs e he
        · exact ⟨c, hc, by simpa using he⟩

theorem foldl_stateFrom (shas : List String) (after : Option CommitOneLine)
    (S : List CommitOneLine) (l : List CommitOneLine) (hl : ∀ c ∈ l, c ∈ S) :
    ∀ s, stateFrom S s → stateFrom S (l.foldl (stepCommit shas after) s) := by
  induction l with
  | nil => intro s hs; exact hs
  | cons c l ih =>
    intro s hs
    exact ih (fun c' h => hl c' (List.mem_cons_of_mem c h)) _
      (stateFrom_step shas after S s c hs (hl c (List.mem_cons_self c l)))

theorem reorder_ok_from {toMove : List CommitOneLine} {afterCommit : Option CommitOneLine}
    {commits : List CommitOneLine} {script : List ScriptEntry}
    (hok : reorder toMove afterCommit commits = .ok script) :
    ∀ e ∈ script, ∃ c ∈ commits, e = pickOf c := by
  obtain ⟨hm, hc⟩ := reorder_ok_ne hok
  have hm' : ¬toMove.length = 0 := by simpa using hm
  have hc' : ¬commits.length = 0 := by simpa using hc
  have hfold : stateFrom commits
      (commits.reverse.foldl (stepCommit (moveShasOf toMove) afterCommit) initState) :=
    foldl_stateFrom _ _ commits commits.reverse (fun c h => List.mem_reverse.mp h)
      initState ⟨by simp [initState], by simp [initState], by simp [initState]⟩
  simp only [reorder, hm', hc', if_false] at hok
  obtain ⟨hb, ha2, hs⟩ := hfold
  cases afterCommit with
  | none =>
    simp only [] at hok
    have hscr := Except.ok.inj hok
    intro e he
    rw [← hscr] at he
    rcases List.mem_append.mp he with he | he
    · rcases List.mem_append.mp he with he | he
      · exact hs e he
      · rcases List.mem_map.mp he with ⟨c, hcm, rfl⟩
        exact ⟨c, ha2 c hcm, rfl⟩
    · rcases List.mem_map.mp he with ⟨c, hcm, rfl⟩
      exact ⟨c, hb c hcm, rfl⟩
  | some a =>
    by_cases hf : (commits.reverse.foldl
        (stepCommit (moveShasOf toMove) (some a)) initState).foundBaseCommitInLog = true
    · simp only [hf, if_true] at hok
      have hscr := Except.ok.inj hok
      intro e he
      rw [← hscr] at he
      rcases List.mem_append.mp he with he | he
      · exact hs e he
      · rcases List.mem_map.mp he with ⟨c, hcm, rfl⟩
        exact ⟨c, ha2 c hcm, rfl⟩
    · simp only [hf] at hok
      simp at hok

theorem map_sha_pickOf (l : List CommitOneLine) :
    (l.map pickOf).map (fun e => e.sha) = l.map fun c => c.sha := by
  simp [List.map_map]
  intro a _
  rfl

/-! ### Claims -/

/-- Claim C1 (Conservation): on every successful run over a duplicate-free
log, the multiset of shas in the produced script equals the multiset of
shas in the log, and the script has the same length as the log. -/
theorem C1_conservation (toMove : List CommitOneLine) (afterCommit : Option CommitOneLine)
    (commits : List CommitOneLine) (script : List ScriptEntry)
    (hnd : (commits.map fun c => c.sha).Nodup)
    (hok : reorder toMove afterCommit commits = .ok script) :
    ((script.map fun e => e.sha : List String) : Multiset String) =
      ((commits.map fun c => c.sha : List String) : Multiset String) ∧
    script.length = commits.length := by
  have key : (script.map fun e => e.sha).Perm (commits.map fun c => c.sha) := by
    cases afterCommit with
    | none =>
      obtain ⟨hm, hc⟩ := reorder_ok_ne hok
      have h0 := reorder_none_eq toMove commits hm hc
      rw [hok] at h0
      have hscr : script = _ := Except.ok.inj h0
      rw [hscr, ← List.map_append, map_sha_pickOf]
      refine ((filters_perm (moveShasOf toMove) commits.reverse).map _).trans ?_
      rw [List.map_reverse]
      exact List.reverse_perm _
    | some a =>
      obtain ⟨l1, e0, l2, hrev, hsha, hmov, hne1, hne2, hscr⟩ :=
        reorder_some_ok_shape hnd hok
      rw [hscr, ← List.map_append, ← List.map_append, map_sha_pickOf]
      refine ((script_commits_perm (moveShasOf toMove) l1 l2 e0).map _).trans ?_
      rw [← hrev, List.map_reverse]
      exact List.reverse_perm _
  refine ⟨Multiset.coe_eq_coe.mpr key, ?_⟩
  have hlen := key.length_eq
  simpa using hlen

def scriptEx : List ScriptEntry :=
  [pickOf cB, pickOf cC, pickOf cA, pickOf cE, pickOf cD]

theorem C1_conservation_witness :
    (logEx.map fun c => c.sha).Nodup ∧
    reorder [cA, cE] (some cC) logEx = .ok scriptEx ∧
    (((scriptEx.map fun e => e.sha : List String) : Multiset String) =
      ((logEx.map fun c => c.sha : List String) : Multiset String) ∧
     scriptEx.length = logEx.length) :=
  ⟨by decide, by decide,
    C1_conservation [cA, cE] (some cC) logEx scriptEx (by decide) (by decide)⟩

/-- Claim C2 (Anchored block structure): on every successful run with an
anchor, the script is exactly: the non-moved entries originally before the
anchor (log order), then a contiguous block starting with the anchor entry
followed by the moved entries originally before it (log order) and the
moved entries originally after it (log order), then the non-moved entries
originally after the anchor (log order). -/
theorem C2_anchored_block (toMove : List CommitOneLine) (a : CommitOneLine)
    (commits : List CommitOneLine) (script : List ScriptEntry)
    (hnd : (commits.map fun c => c.sha).Nodup)
    (hok : reorder toMove (some a) commits = .ok script) :
    ∃ preAnchor anchorEntry postAnchor,
      commits.reverse = preAnchor ++ anchorEntry :: postAnchor ∧
      anchorEntry.sha = a.sha ∧
      script =
        (preAnchor.filter fun c => !isMoveSha (moveShasOf toMove) c.sha).map pickOf ++
        (anchorEntry :: (preAnchor.filter (fun c => isMoveSha (moveShasOf toMove) c.sha) ++
          postAnchor.filter fun c => isMoveSha (moveShasOf toMove) c.sha)).map pickOf ++
        (postAnchor.filter fun c => !isMoveSha (moveShasOf toMove) c.sha).map pickOf := by
  obtain ⟨l1, e0, l2, hrev, hsha, _, _, _, hscr⟩ := reorder_some_ok_shape hnd hok
  exact ⟨l1, e0, l2, hrev, hsha, hscr⟩

theorem C2_anchored_block_witness :
    ((logEx.map fun c => c.sha).Nodup ∧
     reorder [cA, cE] (some cC) logEx = .ok scriptEx) ∧
    (∃ preAnchor anchorEntry postAnchor,
      logEx.reverse = preAnchor ++ anchorEntry :: postAnchor ∧
      anchorEntry.sha = cC.sha ∧
      scriptEx =
        (preAnchor.filter fun c => !isMoveSha (moveShasOf [cA, cE]) c.sha).map pickOf ++
        (anchorEntry :: (preAnchor.filter (fun c => isMoveSha (moveShasOf [cA, cE]) c.sha) ++
          postAnchor.filter fun c => isMoveSha (moveShasOf [cA, cE]) c.sha)).map pickOf ++
        (postAnchor.filter fun c => !isMoveSha (moveShasOf [cA, cE]) c.sha).map pickOf) :=
  ⟨⟨by decide, by decide⟩,
    C2_anchored_block [cA, cE] cC logEx scriptEx (by decide) (by decide)⟩

/-- Claim C3 (Tail placement): on every successful run without an anchor,
the script is the non-moved entries in their original oldest-to-newest
order followed by the moved entries, contiguous at the very end, in
oldest-to-newest log order. -/
theorem C3_tail_placement (toMove : List CommitOneLine) (commits : List CommitOneLine)
    (script : List ScriptEntry)
    (hok : reorder toMove none commits = .ok script) :
    script =
      ((commits.reverse).filter fun c => !isMoveSha (moveShasOf toMove) c.sha).map pickOf ++
      ((commits.reverse).filter fun c => isMoveSha (moveShasOf toMove) c.sha).map pickOf := by
  obtain ⟨hm, hc⟩ := reorder_ok_ne hok
  have h0 := reorder_none_eq toMove commits hm hc
  rw [hok] at h0
  exact Except.ok.inj h0

def scriptTailEx : List ScriptEntry :=
  [pickOf cA, pickOf cC, pickOf cD, pickOf cE, pickOf cB]

theorem C3_tail_placement_witness :
    reorder [cB] none logEx = .ok scriptTailEx ∧
    scriptTailEx =
      ((logEx.reverse).filter fun c => !isMoveSha (moveShasOf [cB]) c.sha).map pickOf ++
      ((logEx.reverse).filter fun c => isMoveSha (moveShasOf [cB]) c.sha).map pickOf :=
  ⟨by decide, C3_tail_placement [cB] logEx scriptTailEx (by decide)⟩

theorem sha_pickOf (c : CommitOneLine) : (pickOf c).sha = c.sha :=
  rfl

theorem filter_filter_self {α : Type} (p : α → Bool) (l : List α) :
    (l.filter p).filter p = l.filter p :=
  List.filter_eq_self.mpr fun _ ha => (List.mem_filter.mp ha).2

theorem filter_filter_neg {α : Type} (p : α → Bool) (l : List α) :
    (l.filter p).filter (fun c => !p c) = [] := by
  rw [List.filter_eq_nil_iff]
  intro a ha
  simp [(List.mem_filter.mp ha).2]

/-- Claim C4 (Non-mover order preservation): on every successful run over a
duplicate-free log, restricting the script and the oldest-to-newest log to
entries whose sha is neither in the move set nor the anchor's sha yields
the same sequence. -/
theorem C4_nonmover_order (toMove : List CommitOneLine) (afterCommit : Option CommitOneLine)
    (commits : List CommitOneLine) (script : List ScriptEntry)
    (hnd : (commits.map fun c => c.sha).Nodup)
    (hok : reorder toMove afterCommit commits = .ok script) :
    script.filter (fun e => !isMoveSha (moveShasOf toMove) e.sha &&
        !isAnchorSha afterCommit e.sha) =
      ((commits.reverse).filter fun c => !isMoveSha (moveShasOf toMove) c.sha &&
        !isAnchorSha afterCommit c.sha).map pickOf := by
  cases afterCommit with
  | none =>
    obtain ⟨hm, hc⟩ := reorder_ok_ne hok
    have h0 := reorder_none_eq toMove commits hm hc
    rw [hok] at h0
    have hscr : script = _ := Except.ok.inj h0
    subst hscr
    rw [List.filter_append, filter_map_pickOf, filter_map_pickOf]
    simp only [sha_pickOf, isAnchorSha, Bool.not_false, Bool.and_true]
    rw [filter_filter_self, filter_filter_neg]
    simp
  | some a =>
    obtain ⟨l1, e0, l2, hrev, hsha, hmov, hne1, hne2, hscr⟩ :=
      reorder_some_ok_shape hnd hok
    subst hscr
    rw [hrev]
    rw [List.filter_append, List.filter_append, filter_map_pickOf, filter_map_pickOf,
      filter_map_pickOf]
    simp only [sha_pickOf, isAnchorSha]
    have key : ∀ (l : List CommitOneLine), (∀ c ∈ l, c.sha ≠ a.sha) →
        l.filter (fun c => !isMoveSha (moveShasOf toMove) c.sha && !decide (c.sha = a.sha)) =
        l.filter fun c => !isMoveSha (moveShasOf toMove) c.sha := by
      intro l hl
      refine List.filter_congr fun c hcm => ?_
      simp [hl c hcm]
    have hQA : ((l1.filter fun c => !isMoveSha (moveShasOf toMove) c.sha).filter
        fun c => !isMoveSha (moveShasOf toMove) c.sha && !decide (c.sha = a.sha)) =
        l1.filter fun c => !isMoveSha (moveShasOf toMove) c.sha := by
      rw [key _ fun c hcm => hne1 c (List.mem_filter.mp hcm).1, filter_filter_self]
    have hQD : ((l2.filter fun c => !isMoveSha (moveShasOf toMove) c.sha).filter
        fun c => !isMoveSha (moveShasOf toMove) c.sha && !decide (c.sha = a.sha)) =
        l2.filter fun c => !isMoveSha (moveShasOf toMove) c.sha := by
      rw [key _ fun c hcm => hne2 c (List.mem_filter.mp hcm).1, filter_filter_self]
    have hQblock : ((e0 :: (l1.filter (fun c => isMoveSha (moveShasOf toMove) c.sha) ++
        l2.filter fun c => isMoveSha (moveShasOf toMove) c.sha)).filter
        fun c => !isMoveSha (moveShasOf toMove) c.sha && !decide (c.sha = a.sha)) = [] := by
      rw [List.filter_eq_nil_iff]
      intro c hcm
      rcases List.mem_cons.mp hcm with rfl | hcm
      · simp [hsha]
      · rcases List.mem_append.mp hcm with hcm | hcm
        · simp [(List.mem_filter.mp hcm).2]
        · simp [(List.mem_filter.mp hcm).2]
    rw [hQA, hQD, hQblock, List.filter_append]
    have hcons : ((e0 :: l2).filter
        fun c => !isMoveSha (moveShasOf toMove) c.sha && !decide (c.sha = a.sha)) =
        l2.filter fun c => !isMoveSha (moveShasOf toMove) c.sha && !decide (c.sha = a.sha) := by
      rw [List.filter_cons_of_neg]
      simp [hsha]
    rw [hcons, key l1 hne1, key l2 hne2]
    simp

theorem C4_nonmover_order_witness :
    ((logEx.map fun c => c.sha).Nodup ∧
     reorder [cA, cE] (some cC) logEx = .ok scriptEx) ∧
    scriptEx.filter (fun e => !isMoveSha (moveShasOf [cA, cE]) e.sha &&
        !isAnchorSha (some cC) e.sha) =
      ((logEx.reverse).filter fun c => !isMoveSha (moveShasOf [cA, cE]) c.sha &&
        !isAnchorSha (some cC) c.sha).map pickOf :=
  ⟨⟨by decide, by decide⟩,
    C4_nonmover_order [cA, cE] (some cC) logEx scriptEx (by decide) (by decide)⟩

theorem filter_neg_filter {α : Type} (p : α → Bool) (l : List α) :
    (l.filter fun c => !p c).filter p = [] := by
  rw [List.filter_eq_nil_iff]
  intro x hx
  have := (List.mem_filter.mp hx).2
  simp at this
  simp [this]

theorem foldl_congr_mem {α β : Type} (f g : β → α → β) (l : List α)
    (h : ∀ s, ∀ c ∈ l, f s c = g s c) : ∀ s, l.foldl f s = l.foldl g s := by
  induction l with
  | nil => intro s; rfl
  | cons c l ih =>
    intro s
    rw [List.foldl_cons, List.foldl_cons, h s c (List.mem_cons_self c l)]
    exact ih (fun s' c' h' => h s' c' (List.mem_cons_of_mem c h')) _

/-- Claim C5 (Move-set order independence): two caller-supplied move lists
carrying the same set of shas give identical results, and restricting the
script of a successful run to moved entries yields the moved entries in
log order — so only set membership of the caller-supplied list matters. -/
theorem C5_moveset_order_independence (toMove1 toMove2 : List CommitOneLine)
    (afterCommit : Option CommitOneLine) (commits : List CommitOneLine)
    (hset : ∀ x, x ∈ moveShasOf toMove1 ↔ x ∈ moveShasOf toMove2) :
    reorder toMove1 afterCommit commits = reorder toMove2 afterCommit commits ∧
    (∀ script, (commits.map fun c => c.sha).Nodup →
      reorder toMove1 afterCommit commits = .ok script →
      script.filter (fun e => isMoveSha (moveShasOf toMove1) e.sha) =
        ((commits.reverse).filter fun c =>
          isMoveSha (moveShasOf toMove1) c.sha).map pickOf) := by
  have hnil : ∀ (t1 t2 : List CommitOneLine),
      (∀ x, x ∈ moveShasOf t1 ↔ x ∈ moveShasOf t2) → t1 = [] → t2 = [] := by
    intro t1 t2 hs h1
    cases t2 with
    | nil => rfl
    | cons c t =>
      exfalso
      have hc : c.sha ∈ moveShasOf (c :: t) := by simp [moveShasOf]
      have := (hs c.sha).mpr hc
      rw [h1] at this
      simp [moveShasOf] at this
  constructor
  · have hfun : isMoveSha (moveShasOf toMove1) = isMoveSha (moveShasOf toMove2) := by
      funext x
      unfold isMoveSha
      exact decide_eq_decide.mpr (hset x)
    have hstep : stepCommit (moveShasOf toMove1) afterCommit =
        stepCommit (moveShasOf toMove2) afterCommit := by
      funext s c
      simp only [stepCommit, hfun]
    by_cases h1 : toMove1 = []
    · have h2 := hnil toMove1 toMove2 hset h1
      rw [h1, h2]
    · have h2 : toMove2 ≠ [] := fun h => h1 (hnil toMove2 toMove1 (fun x => (hset x).symm) h)
      have h1' : ¬toMove1.length = 0 := by simpa using h1
      have h2' : ¬toMove2.length = 0 := by simpa using h2
      simp only [reorder, h1', h2', if_false, hstep]
  · intro script hnd hok
    cases afterCommit with
    | none =>
      obtain ⟨hm, hc⟩ := reorder_ok_ne hok
      have h0 := reorder_none_eq toMove1 commits hm hc
      rw [hok] at h0
      have hscr : script = _ := Except.ok.inj h0
      subst hscr
      rw [List.filter_append, filter_map_pickOf, filter_map_pickOf]
      simp only [sha_pickOf]
      rw [filter_neg_filter, filter_filter_self]
      simp
    | some a =>
      obtain ⟨l1, e0, l2, hrev, hsha, hmov, hne1, hne2, hscr⟩ :=
        reorder_some_ok_shape hnd hok
      subst hscr
      rw [hrev]
      rw [List.filter_append, List.filter_append, filter_map_pickOf, filter_map_pickOf,
        filter_map_pickOf]
      simp only [sha_pickOf]
      rw [filter_neg_filter, filter_neg_filter]
      have hblock : ((e0 :: (l1.filter (fun c => isMoveSha (moveShasOf toMove1) c.sha) ++
          l2.filter fun c => isMoveSha (moveShasOf toMove1) c.sha)).filter
          fun c => isMoveSha (moveShasOf toMove1) c.sha) =
          l1.filter (fun c => isMoveSha (moveShasOf toMove1) c.sha) ++
          l2.filter fun c => isMoveSha (moveShasOf toMove1) c.sha := by
        rw [List.filter_cons_of_neg (by simp [hmov]), List.filter_append,
          filter_filter_self, filter_filter_self]
      rw [hblock, List.filter_append, List.filter_cons_of_neg (by simp [hmov])]
      simp

theorem C5_moveset_order_independence_witness :
    (∀ x, x ∈ moveShasOf [cE, cA] ↔ x ∈ moveShasOf [cA, cE, cA]) ∧
    reorder [cE, cA] (some cC) logEx = reorder [cA, cE, cA] (some cC) logEx ∧
    ((logEx.map fun c => c.sha).Nodup ∧
     reorder [cE, cA] (some cC) logEx = .ok scriptEx ∧
     scriptEx.filter (fun e => isMoveSha (moveShasOf [cE, cA]) e.sha) =
       ((logEx.reverse).filter fun c => isMoveSha (moveShasOf [cE, cA]) c.sha).map pickOf) := by
  have hset : ∀ x, x ∈ moveShasOf [cE, cA] ↔ x ∈ moveShasOf [cA, cE, cA] := by
    intro x
    simp [moveShasOf, cA, cE]
    tauto
  refine ⟨hset, ?_, by decide, by decide, ?_⟩
  · exact (C5_moveset_order_independence [cE, cA] [cA, cE, cA] (some cC) logEx hset).1
  · exact (C5_moveset_order_independence [cE, cA] [cA, cE, cA] (some cC) logEx hset).2
      scriptEx (by decide) (by decide)

/-- Claim C6 (Anchor-missing failure): with a non-empty log and non-empty
move set, if the anchor's sha never appears in the log the call fails with
`AnchorNotFound` and no script is returned. -/
theorem C6_anchor_missing (toMove : List CommitOneLine) (a : CommitOneLine)
    (commits : List CommitOneLine) (hm : toMove ≠ []) (hc : commits ≠ [])
    (ha : a.sha ∉ commits.map fun c => c.sha) :
    reorder toMove (some a) commits = .error .anchorNotFound := by
  refine reorder_anchor_not_hit toMove a commits hm hc fun c hcm => Or.inr ?_
  have hne : c.sha ≠ a.sha := fun h => ha (h ▸ List.mem_map_of_mem _ hcm)
  simp [isAnchorSha, hne]

theorem C6_anchor_missing_witness :
    (([cA] : List CommitOneLine) ≠ [] ∧ ([cC, cB, cA] : List CommitOneLine) ≠ [] ∧
     cZ.sha ∉ [cC, cB, cA].map fun c => c.sha) ∧
    reorder [cA] (some cZ) [cC, cB, cA] = .error .anchorNotFound :=
  ⟨⟨by decide, by decide, by decide⟩,
    C6_anchor_missing [cA] cZ [cC, cB, cA] (by decide) (by decide) (by decide)⟩

/-- Claim C9 (implicit): if the anchor's sha is itself in the move set, the
toMove branch of the loop shadows the base-commit branch, so the base
commit is never recognised and the call fails with `AnchorNotFound` even
though the anchor's sha is present in the log. -/
theorem C9_anchor_in_moveset (toMove : List CommitOneLine) (a : CommitOneLine)
    (commits : List CommitOneLine) (hm : toMove ≠ []) (hc : commits ≠ [])
    (_haLog : a.sha ∈ commits.map fun c => c.sha)
    (haMove : a.sha ∈ moveShasOf toMove) :
    reorder toMove (some a) commits = .error .anchorNotFound := by
  refine reorder_anchor_not_hit toMove a commits hm hc fun c _ => ?_
  cases hmv : isMoveSha (moveShasOf toMove) c.sha with
  | true => exact Or.inl rfl
  | false =>
    refine Or.inr ?_
    have hne : c.sha ≠ a.sha := by
      intro h
      rw [h] at hmv
      simp [isMoveSha, haMove] at hmv
    simp [isAnchorSha, hne]

theorem C9_anchor_in_moveset_witness :
    (([cC] : List CommitOneLine) ≠ [] ∧ ([cC, cB, cA] : List CommitOneLine) ≠ [] ∧
     cC.sha ∈ [cC, cB, cA].map (fun c => c.sha) ∧ cC.sha ∈ moveShasOf [cC]) ∧
    reorder [cC] (some cC) [cC, cB, cA] = .error .anchorNotFound :=
  ⟨⟨by decide, by decide, by decide, by decide⟩,
    C9_anchor_in_moveset [cC] cC [cC, cB, cA] (by decide) (by decide) (by decide) (by decide)⟩

/-- Claim C10 (implicit): a move-set sha that does not occur in the log is
ignored — adding such an entry to a (valid, non-empty) move list leaves the
result unchanged, and no script entry ever carries that sha. -/
theorem C10_unknown_hashes_ignored (toMove : List CommitOneLine)
    (afterCommit : Option CommitOneLine) (commits : List CommitOneLine)
    (extra : CommitOneLine) (hm : toMove ≠ [])
    (hx : extra.sha ∉ commits.map fun c => c.sha) :
    reorder (toMove ++ [extra]) afterCommit commits = reorder toMove afterCommit commits ∧
    (∀ script, reorder toMove afterCommit commits = .ok script →
      ∀ e ∈ script, e.sha ≠ extra.sha) := by
  constructor
  · have hm1 : ¬(toMove ++ [extra]).length = 0 := by simp
    have hm' : ¬toMove.length = 0 := by simpa using hm
    by_cases hc : commits.length = 0
    · simp [reorder, hm1, hm', hc]
    · simp only [reorder, hm1, hm', hc, if_false]
      have hfold : commits.reverse.foldl
          (stepCommit (moveShasOf (toMove ++ [extra])) afterCommit) initState =
          commits.reverse.foldl (stepCommit (moveShasOf toMove) afterCommit) initState := by
        refine foldl_congr_mem _ _ commits.reverse (fun s c hcm => ?_) initState
        have hcc : c ∈ commits := List.mem_reverse.mp hcm
        have hne : c.sha ≠ extra.sha := fun h => hx (h ▸ List.mem_map_of_mem _ hcc)
        have hmem : (c.sha ∈ moveShasOf (toMove ++ [extra])) ↔
            (c.sha ∈ moveShasOf toMove) := by
          simp [moveShasOf, hne]
        have hb : isMoveSha (moveShasOf (toMove ++ [extra])) c.sha =
            isMoveSha (moveShasOf toMove) c.sha := by
          unfold isMoveSha
          exact decide_eq_decide.mpr hmem
        simp only [stepCommit, hb]
      rw [hfold]
  · intro script hok e he
    obtain ⟨c, hcmem, rfl⟩ := reorder_ok_from hok e he
    rw [sha_pickOf]
    exact fun h => hx (h ▸ List.mem_map_of_mem _ hcmem)

def scriptSmallEx : List ScriptEntry :=
  [pickOf cB, pickOf cC, pickOf cA]

theorem C10_unknown_hashes_ignored_witness :
    (([cA] : List CommitOneLine) ≠ [] ∧ cZ.sha ∉ [cC, cB, cA].map fun c => c.sha) ∧
    reorder [cA, cZ] none [cC, cB, cA] = reorder [cA] none [cC, cB, cA] ∧
    (reorder [cA] none [cC, cB, cA] = .ok scriptSmallEx ∧
      ∀ e ∈ scriptSmallEx, e.sha ≠ cZ.sha) :=
  ⟨⟨by decide, by decide⟩,
    (C10_unknown_hashes_ignored [cA] none [cC, cB, cA] cZ (by decide) (by decide)).1,
    by decide,
    (C10_unknown_hashes_ignored [cA] none [cC, cB, cA] cZ (by decide) (by decide)).2
      scriptSmallEx (by decide)⟩

/-- Claim C7 counterexample: when both the move set and the log are empty,
the call fails with `EmptyMoveSet`, not `EmptyLog` — the literal reading
"an empty log makes it fail with EmptyLog" is false at this input. -/
theorem C7_preconditions_counterexample :
    reorder [] none [] = .error .emptyMoveSet ∧
    reorder [] none [] ≠ .error .emptyLog := by
  constructor
  · rfl
  · decide

/-- Claim C7 as amended: an empty move list fails with `EmptyMoveSet`
whatever the log and anchor are (so before any traversal); a non-empty
move list with an empty log fails with `EmptyLog`, whatever the anchor is.
The move-set check precedes the log check, so with both empty the result
is `EmptyMoveSet`. -/
theorem C7_preconditions_amended (toMove : List CommitOneLine)
    (afterCommit : Option CommitOneLine) (commits : List CommitOneLine) :
    (toMove = [] → reorder toMove afterCommit commits = .error .emptyMoveSet) ∧
    (toMove ≠ [] → commits = [] → reorder toMove afterCommit commits = .error .emptyLog) := by
  constructor
  · intro h
    subst h
    rfl
  · intro hm hc
    subst hc
    have hm' : ¬toMove.length = 0 := by simpa using hm
    simp [reorder, hm']

theorem C7_preconditions_amended_witness :
    reorder [] (some cC) [cC, cB, cA] = .error .emptyMoveSet ∧
    reorder [cA] (some cC) [] = .error .emptyLog :=
  ⟨(C7_preconditions_amended [] (some cC) [cC, cB, cA]).1 rfl,
   (C7_preconditions_amended [cA] (some cC) []).2 (by decide) rfl⟩

/-- Claim C8 (Script-storage cleanup): on every exit path of the operation
— success, either precondition throw, `AnchorNotFound`, engine failure or
engine throw — if the temporary todo file was acquired, the `finally`
block releases it. -/
theorem C8_todo_cleanup (toMove : List CommitOneLine) (afterCommit : Option CommitOneLine)
    (commits : List CommitOneLine) (engine : EngineOutcome)
    (hacq : (reorderExec toMove afterCommit commits engine).todoAcquired = true) :
    (reorderExec toMove afterCommit commits engine).todoReleased = true := by
  unfold reorderExec at hacq ⊢
  by_cases h1 : toMove.length = 0
  · simp [h1] at hacq
  · by_cases h2 : commits.length = 0
    · simp [h1, h2] at hacq
    · simp only [h1, h2, if_false]
      cases reorder toMove afterCommit commits with
      | error e => rfl
      | ok s => cases engine <;> rfl

theorem C8_todo_cleanup_witness :
    (reorderExec [cB] none logEx (.returns .completedWithoutError)).todoAcquired = true ∧
    (reorderExec [cB] none logEx (.returns .completedWithoutError)).todoReleased = true :=
  ⟨by decide, C8_todo_cleanup [cB] none logEx (.returns .completedWithoutError) (by decide)⟩
